import Mathlib

/-!
Shallow embedding of the swim-rs failure detector (src/protocol/node.rs,
src/protocol/metrics.rs, src/protocol/messages.rs) and proofs about it.

Modelling conventions:
* `SocketAddr` is abstracted to `Addr := Nat` (addresses are opaque identity
  keys in the protocol).
* `Instant` and `Duration` are modelled as `Nat` (milliseconds on a monotonic
  clock); `a.duration_since(b)` becomes truncated subtraction `a - b`.
* The `u64` metric counters are modelled as `Nat` (the code uses ordinary
  `+= 1`; overflow of a u64 counter is unreachable in any practical run).
* `self_seq` is a `u32` with `wrapping_add`, modelled as `% 2^32`.
* `HashMap<SocketAddr, Member>` is modelled as an association list whose keys
  are pairwise distinct (the code inserts only after a `contains_key` check);
  iteration order of the map is the list order.
* Randomness (`rand::rng().next_u32()`) is modelled by an explicit list of
  draws threaded through the functions that consume them.
* The floating-point percentile indices `(n as f64 * 0.95) as usize` and
  `(n as f64 * 0.99) as usize` are modelled as `n * 95 / 100` and
  `n * 99 / 100`: for every ring size reachable in the program (n ≤ 1000 and
  far beyond) the f64 computation yields exactly this rational floor.
* The f64 `jitter` (standard deviation) field is not modelled: no claim
  mentions it and floating-point sqrt is outside the embedding.
* Serialization (`postcard`) is opaque: outgoing messages are queued as
  `(Message, recipient)` pairs instead of byte strings.
-/

namespace Swim

/-- Abstract peer address (stands for `SocketAddr`). -/
abbrev Addr := Nat

/-- `PeerState` from node.rs. -/
inductive PeerState where
  | active
  | suspect
  | dead
deriving DecidableEq, Repr

/-- `Member` from node.rs: state, incarnation, last state change timestamp. -/
structure Member where
  state : PeerState
  incarnation : Nat
  last_state_change : Nat
deriving DecidableEq, Repr

/-- `Membership` from node.rs: the local sequence counter and the member map
(modelled as an association list with distinct keys). -/
structure Membership where
  self_seq : Nat
  members : List (Addr × Member)
deriving DecidableEq, Repr

/-- `PendingProbe` from node.rs. -/
structure PendingProbe where
  seq : Nat
  target : Addr
  sent_at : Nat
  indirect_sent : Bool
deriving DecidableEq, Repr

/-- The three wire message variants from messages.rs. The second component of
each is the `from` field (the originator's address). -/
inductive Message where
  | ping (seq : Nat) (sender : Addr)
  | ack (seq : Nat) (sender : Addr)
  | pingReq (seq : Nat) (sender : Addr) (target : Addr)
deriving DecidableEq, Repr

/-- `LatencyMetrics` from metrics.rs. RTT samples are durations in
milliseconds; the `VecDeque` ring is a list with front at the head. -/
structure LatencyMetrics where
  samples : List Nat
  max_samples : Nat
  pings_sent : Nat
  acks_received : Nat
  timeouts : Nat
deriving DecidableEq, Repr

/-- `Node` from node.rs (the socket and last-tick bookkeeping are external;
the send queue holds decoded messages instead of bytes). -/
structure Node where
  local_addr : Addr
  members : Membership
  probes : List PendingProbe
  send_queue : List (Message × Addr)
  metrics : LatencyMetrics
deriving DecidableEq, Repr

/-- PROBE_TIMEOUT = 500 ms. -/
def PROBE_TIMEOUT : Nat := 500

/-- SUSPECT_TIMEOUT = 3 s. -/
def SUSPECT_TIMEOUT : Nat := 3000

/-- INDIRECT_PROBE_COUNT = 3. -/
def INDIRECT_PROBE_COUNT : Nat := 3

/-! ### Membership map primitives (HashMap get / get_mut / insert) -/

/-- `members.get(&a)`: the entry with key `a` (keys are pairwise distinct,
so the first hit is the only one). -/
def mget : List (Addr × Member) → Addr → Option Member
  | [], _ => none
  | (k, v) :: ms, a => if k = a then some v else mget ms a

/-- `members.get_mut(&a)` followed by a record update: apply `f` to the entry
with key `a` (keys are unchanged). -/
def mupdate : List (Addr × Member) → Addr → (Member → Member) → List (Addr × Member)
  | [], _, _ => []
  | (k, v) :: ms, a, f => (if k = a then (k, f v) else (k, v)) :: mupdate ms a f

/-- `Node::ensure_member`: insert `addr` with a fresh Active record unless it
is the local address or already present. -/
def ensureMember (localAddr : Addr) (ms : List (Addr × Member)) (a : Addr)
    (now : Nat) : List (Addr × Member) :=
  if a ≠ localAddr ∧ mget ms a = none then
    ms ++ [(a, ⟨PeerState.active, 0, now⟩)]
  else ms

/-- `Node::mark_active`. -/
def markActive (localAddr : Addr) (ms : List (Addr × Member)) (a : Addr)
    (now : Nat) : List (Addr × Member) :=
  match mget ms a with
  | some m =>
    if m.state ≠ PeerState.active then
      mupdate ms a (fun m => { m with state := PeerState.active, last_state_change := now })
    else ms
  | none => ensureMember localAddr ms a now

/-- `Node::mark_suspect`. -/
def markSuspect (ms : List (Addr × Member)) (a : Addr) (now : Nat) :
    List (Addr × Member) :=
  match mget ms a with
  | some m =>
    if m.state = PeerState.active then
      mupdate ms a (fun m => { m with state := PeerState.suspect, last_state_change := now })
    else ms
  | none => ms

/-- `Node::mark_dead`. -/
def markDead (ms : List (Addr × Member)) (a : Addr) (now : Nat) :
    List (Addr × Member) :=
  match mget ms a with
  | some m =>
    if m.state ≠ PeerState.dead then
      mupdate ms a (fun m => { m with state := PeerState.dead, last_state_change := now })
    else ms
  | none => ms

/-! ### Metrics operations -/

/-- `LatencyMetrics::record_rtt`: pop the oldest sample if the ring is full,
push the new one, bump `acks_received`. -/
def recordRtt (m : LatencyMetrics) (rtt : Nat) : LatencyMetrics :=
  let samples := if m.max_samples ≤ m.samples.length then m.samples.tail else m.samples
  { m with samples := samples ++ [rtt], acks_received := m.acks_received + 1 }

/-- `LatencyMetrics::record_ping_sent`. -/
def recordPingSent (m : LatencyMetrics) : LatencyMetrics :=
  { m with pings_sent := m.pings_sent + 1 }

/-- `LatencyMetrics::record_timeout`. -/
def recordTimeout (m : LatencyMetrics) : LatencyMetrics :=
  { m with timeouts := m.timeouts + 1 }

/-- The sorted snapshot taken inside `LatencyMetrics::stats`
(`sorted.sort()` on a copy of the ring). -/
def sortedSamples (m : LatencyMetrics) : List Nat :=
  m.samples.insertionSort (· ≤ ·)

/-- Index used for p50: `count / 2`. -/
def p50Index (n : Nat) : Nat := n / 2

/-- Index used for p95: `(count as f64 * 0.95) as usize`, i.e. ⌊0.95·n⌋. -/
def p95Index (n : Nat) : Nat := n * 95 / 100

/-- Index used for p99: `((count as f64 * 0.99) as usize).min(count - 1)`. -/
def p99Index (n : Nat) : Nat := min (n * 99 / 100) (n - 1)

/-- `LatencyStats` from metrics.rs (without the floating-point jitter). -/
structure LatencyStats where
  min : Nat
  max : Nat
  mean : Nat
  p50 : Nat
  p95 : Nat
  p99 : Nat
  sample_count : Nat
deriving DecidableEq, Repr

/-- `LatencyMetrics::stats`: `None` on an empty ring, otherwise min / max /
mean / percentiles over the sorted snapshot. `Duration / u32` is integer
division of the millisecond value. -/
def stats (m : LatencyMetrics) : Option LatencyStats :=
  if m.samples = [] then none
  else
    let sorted := sortedSamples m
    let count := sorted.length
    some
      { min := sorted.getD 0 0
        max := sorted.getD (count - 1) 0
        mean := sorted.sum / count
        p50 := sorted.getD (p50Index count) 0
        p95 := sorted.getD (p95Index count) 0
        p99 := sorted.getD (p99Index count) 0
        sample_count := count }

/-! ### Node operations -/

/-- `Node::send_ping`: allocate the next sequence number (wrapping u32), push
a pending probe stamped `now`, queue the Ping, bump `pings_sent`. -/
def sendPing (n : Node) (target : Addr) (now : Nat) : Node :=
  let seq := n.members.self_seq
  { n with
    members := { n.members with self_seq := (n.members.self_seq + 1) % 2 ^ 32 }
    probes := n.probes ++ [⟨seq, target, now, false⟩]
    send_queue := n.send_queue ++ [(Message.ping seq n.local_addr, target)]
    metrics := recordPingSent n.metrics }

/-- Rust `Vec::swap_remove(i)`: overwrite index `i` with the last element and
drop the last element. -/
def swapRemove (l : List Nat) (i : Nat) : List Nat :=
  match l.getLast? with
  | none => []
  | some b => (l.set i b).dropLast

/-- The selection loop of `Node::send_indirect_probes`: `k` times draw a
random index into the shrinking index list, keep the index found there and
swap-remove it. `rng` supplies the raw `next_u32` draws. -/
def selectIdx (rng : List Nat) (k : Nat) (indices : List Nat) : List Nat :=
  match k with
  | 0 => []
  | k + 1 =>
    let idx := rng.headD 0 % indices.length
    indices.getD idx 0 :: selectIdx rng.tail k (swapRemove indices idx)

/-- The eligible intermediaries in `Node::send_indirect_probes`: members
other than `target` whose state is Active, in map order. -/
def eligibleOthers (ms : List (Addr × Member)) (target : Addr) : List Addr :=
  (ms.filter (fun km => decide (km.1 ≠ target) && decide (km.2.state = PeerState.active))).map (·.1)

/-- `Node::send_indirect_probes` as a message batch: the PingReq messages it
queues (paired with their recipients) and the remaining rng draws. -/
def indirectBatch (ms : List (Addr × Member)) (localAddr : Addr) (target : Addr)
    (seq : Nat) (rng : List Nat) : List (Message × Addr) × List Nat :=
  let others := eligibleOthers ms target
  if others = [] then ([], rng)
  else
    let count := min others.length INDIRECT_PROBE_COUNT
    let chosen := selectIdx rng count (List.range others.length)
    (chosen.map (fun i => (Message.pingReq seq localAddr target, others.getD i 0)),
     rng.drop count)

/-- `Node::send_indirect_probes` at node level: append the batch to the send
queue; nothing else changes. Returns the remaining rng draws. -/
def sendIndirectProbes (n : Node) (target : Addr) (seq : Nat) (rng : List Nat) :
    Node × List Nat :=
  let b := indirectBatch n.members.members n.local_addr target seq rng
  ({ n with send_queue := n.send_queue ++ b.1 }, b.2)

/-- `Node::handle_message` (the Ping, Ack and PingReq arms). `now` is the
receipt instant. -/
def handleMessage (n : Node) (msg : Message) (now : Nat) : Node :=
  match msg with
  | Message.ping seq sender =>
    { n with
      members := { n.members with members := ensureMember n.local_addr n.members.members sender now }
      send_queue := n.send_queue ++ [(Message.ack seq n.local_addr, sender)] }
  | Message.ack seq sender =>
    let matched := n.probes.find? (fun p => decide (p.seq = seq) && decide (p.target = sender))
    let metrics := match matched with
      | some p => recordRtt n.metrics (now - p.sent_at)
      | none => n.metrics
    { n with
      metrics := metrics
      probes := n.probes.filter (fun p => !(decide (p.seq = seq) && decide (p.target = sender)))
      members := { n.members with members := markActive n.local_addr n.members.members sender now } }
  | Message.pingReq seq sender target =>
    { n with
      members := { n.members with members := ensureMember n.local_addr n.members.members sender now }
      send_queue := n.send_queue ++ [(Message.ping seq n.local_addr, target)] }

/-- A probe the first scan of `check_probe_timeouts` classifies as expired
without an indirect attempt yet. -/
def expiredDirect (now : Nat) (p : PendingProbe) : Bool :=
  decide (PROBE_TIMEOUT < now - p.sent_at) && !p.indirect_sent

/-- A probe the first scan of `check_probe_timeouts` classifies as expired
after an indirect attempt. -/
def expiredIndirect (now : Nat) (p : PendingProbe) : Bool :=
  decide (PROBE_TIMEOUT < now - p.sent_at) && p.indirect_sent

/-- The retain predicate at the end of `check_probe_timeouts`. -/
def retainProbe (now : Nat) (p : PendingProbe) : Bool :=
  decide (now - p.sent_at ≤ PROBE_TIMEOUT) || !p.indirect_sent

/-- `Node::check_probe_timeouts`: scan for expired probes, fire indirect
probes for first-time expiries (resetting their timers), mark the rest
suspect, and reap. The scan time `now` also stands in for the fresh
`Instant::now()` used when resetting `sent_at` (the tick is instantaneous in
the model). -/
def checkProbeTimeouts (n : Node) (now : Nat) (rng : List Nat) : Node :=
  let needIndirect := (n.probes.filter (expiredDirect now)).map (fun p => (p.target, p.seq))
  let timedOut := (n.probes.filter (expiredIndirect now)).map (fun p => p.target)
  -- for (target, seq) in need_indirect { send_indirect_probes(..); reset matching probes }
  let phase1 := needIndirect.foldl
    (fun (acc : List PendingProbe × List (Message × Addr) × List Nat) ts =>
      let b := indirectBatch n.members.members n.local_addr ts.1 ts.2 acc.2.2
      (acc.1.map (fun p =>
          if p.target = ts.1 then { p with indirect_sent := true, sent_at := now } else p),
       acc.2.1 ++ b.1, b.2))
    (n.probes, n.send_queue, rng)
  -- for target in timed_out { mark_suspect(target); record_timeout() }
  let phase2 := timedOut.foldl
    (fun (acc : List (Addr × Member) × LatencyMetrics) t =>
      (markSuspect acc.1 t now, recordTimeout acc.2))
    (n.members.members, n.metrics)
  { n with
    members := { n.members with members := phase2.1 }
    metrics := phase2.2
    probes := phase1.1.filter (retainProbe now)
    send_queue := phase1.2.1 }

/-- `Node::check_suspect_timeouts`: collect suspects whose grace period has
elapsed, then mark each dead. -/
def checkSuspectTimeouts (n : Node) (now : Nat) : Node :=
  let toMarkDead := (n.members.members.filter
    (fun km => decide (km.2.state = PeerState.suspect) &&
               decide (SUSPECT_TIMEOUT < now - km.2.last_state_change))).map (·.1)
  { n with
    members := { n.members with
      members := toMarkDead.foldl (fun ms a => markDead ms a now) n.members.members } }

/-- `Node::probe_random_member`: pick a uniformly random Active member (one
rng draw) and ping it unless a probe for it is already pending. -/
def probeRandomMember (n : Node) (now : Nat) (r : Nat) : Node :=
  let active := (n.members.members.filter (fun km => decide (km.2.state = PeerState.active))).map (·.1)
  if active = [] then n
  else
    let target := active.getD (r % active.length) 0
    if n.probes.any (fun p => decide (p.target = target)) then n
    else sendPing n target now

/-- `Node::tick` (without the log lines): probe-timeout scan, suspect scan,
random probe. `rng` feeds the indirect-probe selections, `r` the random
target pick. -/
def tick (n : Node) (now : Nat) (rng : List Nat) (r : Nat) : Node :=
  probeRandomMember (checkSuspectTimeouts (checkProbeTimeouts n now rng) now) now r

/-- One event of an execution: a locally initiated ping (`join` /
`probe_random_member` path), an inbound decoded message, or a tick. -/
inductive Event where
  | send (target : Addr) (now : Nat)
  | recv (msg : Message) (now : Nat)
  | tickAt (now : Nat) (rng : List Nat) (r : Nat)
deriving Repr

/-- Apply one event to the node state. -/
def step (n : Node) (e : Event) : Node :=
  match e with
  | Event.send target now => sendPing n target now
  | Event.recv msg now => handleMessage n msg now
  | Event.tickAt now rng r => tick n now rng r

/-- A fresh node as built by `Node::new` (ring capacity 1000, empty tables,
zeroed counters). -/
def Node.init (localAddr : Addr) : Node :=
  { local_addr := localAddr
    members := { self_seq := 0, members := [] }
    probes := []
    send_queue := []
    metrics := { samples := [], max_samples := 1000, pings_sent := 0, acks_received := 0, timeouts := 0 } }

/-- Run a finite event sequence from a state. -/
def run (n : Node) (events : List Event) : Node :=
  events.foldl step n

/-! ### Lemmas about the membership map primitives -/

theorem mget_append (ms ms₂ : List (Addr × Member)) (a : Addr) :
    mget (ms ++ ms₂) a = ((mget ms a).rec (mget ms₂ a) (fun v => some v) : Option Member) := by
  induction ms with
  | nil => rfl
  | cons kv ms ih =>
    obtain ⟨k, v⟩ := kv
    by_cases h : k = a <;> simp [mget, h, ih]

theorem mget_append_of_isSome (ms ms₂ : List (Addr × Member)) (a : Addr) (m : Member)
    (h : mget ms a = some m) : mget (ms ++ ms₂) a = some m := by
  rw [mget_append, h]

theorem mget_append_of_eq_none (ms ms₂ : List (Addr × Member)) (a : Addr)
    (h : mget ms a = none) : mget (ms ++ ms₂) a = mget ms₂ a := by
  rw [mget_append, h]

theorem mget_mupdate (ms : List (Addr × Member)) (a x : Addr) (f : Member → Member) :
    mget (mupdate ms a f) x = if x = a then (mget ms x).map f else mget ms x := by
  induction ms with
  | nil => by_cases h : x = a <;> simp [mget, mupdate, h]
  | cons kv ms ih =>
    obtain ⟨k, v⟩ := kv
    simp only [mupdate]
    by_cases hka : k = a
    · rw [if_pos hka]
      subst hka
      by_cases hkx : k = x
      · subst hkx
        simp [mget]
      · simp [mget, hkx, Ne.symm hkx, ih]
    · rw [if_neg hka]
      by_cases hkx : k = x
      · subst hkx
        simp [mget, hka]
      · simp [mget, hkx, ih]

theorem mupdate_keys (ms : List (Addr × Member)) (a : Addr) (f : Member → Member) :
    (mupdate ms a f).map (·.1) = ms.map (·.1) := by
  induction ms with
  | nil => rfl
  | cons kv ms ih =>
    obtain ⟨k, v⟩ := kv
    simp only [mupdate]
    by_cases h : k = a <;> simp [h, ih]

theorem mget_singleton (a x : Addr) (m : Member) :
    mget [(a, m)] x = if a = x then some m else none := rfl

/-- `ensure_member` never touches an address already present. -/
theorem mget_ensureMember_of_isSome (L : Addr) (ms : List (Addr × Member)) (a x : Addr)
    (now : Nat) (m : Member) (h : mget ms x = some m) :
    mget (ensureMember L ms a now) x = some m := by
  unfold ensureMember
  split
  · next hc =>
    exact mget_append_of_isSome ms _ x m h
  · exact h

/-- `ensure_member` on a fresh non-local address inserts an Active record. -/
theorem mget_ensureMember_self (L : Addr) (ms : List (Addr × Member)) (a : Addr)
    (now : Nat) (ha : a ≠ L) (h : mget ms a = none) :
    mget (ensureMember L ms a now) a = some ⟨PeerState.active, 0, now⟩ := by
  unfold ensureMember
  rw [if_pos ⟨ha, h⟩, mget_append_of_eq_none ms _ a h, mget_singleton, if_pos rfl]

/-- `ensure_member` never inserts the local address. -/
theorem mget_ensureMember_local (L : Addr) (ms : List (Addr × Member)) (a : Addr)
    (now : Nat) (h : mget ms L = none) :
    mget (ensureMember L ms a now) L = none := by
  unfold ensureMember
  split
  · next hc =>
    rw [mget_append_of_eq_none ms _ L h, mget_singleton, if_neg hc.1]
  · exact h

/-! ### Lemmas about the state-marking operations -/

/-- After `mark_active(a)` on a non-local address, `a` is present and Active. -/
theorem markActive_mem_active (L : Addr) (ms : List (Addr × Member)) (a : Addr)
    (now : Nat) (ha : a ≠ L) :
    ∃ m, mget (markActive L ms a now) a = some m ∧ m.state = PeerState.active := by
  cases hm : mget ms a with
  | some m =>
    by_cases hs : m.state = PeerState.active
    · refine ⟨m, ?_, hs⟩
      simp only [markActive, hm]
      rw [if_neg (fun hne => hne hs)]
      exact hm
    · refine ⟨{ m with state := PeerState.active, last_state_change := now }, ?_, rfl⟩
      simp only [markActive, hm]
      rw [if_pos hs, mget_mupdate, if_pos rfl, hm]
      rfl
  | none =>
    refine ⟨⟨PeerState.active, 0, now⟩, ?_, rfl⟩
    simp only [markActive, hm]
    exact mget_ensureMember_self L ms a now ha hm

/-- `mark_active` touches no address other than its argument. -/
theorem mget_markActive_of_ne (L : Addr) (ms : List (Addr × Member)) (a x : Addr)
    (now : Nat) (hx : x ≠ a) (m : Member) (h : mget ms x = some m) :
    mget (markActive L ms a now) x = some m := by
  cases hm : mget ms a with
  | some ma =>
    simp only [markActive, hm]
    by_cases hs : ma.state = PeerState.active
    · rw [if_neg (fun hne => hne hs)]
      exact h
    · rw [if_pos hs, mget_mupdate, if_neg hx]
      exact h
  | none =>
    simp only [markActive, hm]
    exact mget_ensureMember_of_isSome L ms a x now m h

/-- `mark_active` never inserts the local address. -/
theorem mget_markActive_local (L : Addr) (ms : List (Addr × Member)) (a : Addr)
    (now : Nat) (h : mget ms L = none) :
    mget (markActive L ms a now) L = none := by
  cases hm : mget ms a with
  | some ma =>
    have hxa : L ≠ a := fun he => by rw [← he, h] at hm; exact Option.noConfusion hm
    simp only [markActive, hm]
    by_cases hs : ma.state = PeerState.active
    · rw [if_neg (fun hne => hne hs)]
      exact h
    · rw [if_pos hs, mget_mupdate, if_neg hxa]
      exact h
  | none =>
    simp only [markActive, hm]
    exact mget_ensureMember_local L ms a now h

/-- `mark_suspect` on an absent member is a no-op (whole-table equality). -/
theorem markSuspect_absent (ms : List (Addr × Member)) (a : Addr) (now : Nat)
    (h : mget ms a = none) : markSuspect ms a now = ms := by
  simp only [markSuspect, h]

/-- `mark_suspect` on a member that is not Active is a no-op
(whole-table equality). -/
theorem markSuspect_not_active (ms : List (Addr × Member)) (a : Addr) (now : Nat)
    (m : Member) (h : mget ms a = some m) (hs : m.state ≠ PeerState.active) :
    markSuspect ms a now = ms := by
  simp only [markSuspect, h]
  exact if_neg hs

/-- `mark_suspect` on an Active member makes it Suspect and stamps `now`. -/
theorem markSuspect_active (ms : List (Addr × Member)) (a : Addr) (now : Nat)
    (m : Member) (h : mget ms a = some m) (hs : m.state = PeerState.active) :
    mget (markSuspect ms a now) a =
      some { m with state := PeerState.suspect, last_state_change := now } := by
  simp only [markSuspect, h]
  rw [if_pos hs, mget_mupdate, if_pos rfl, h]
  rfl

/-- `mark_suspect` touches no address other than its argument. -/
theorem mget_markSuspect_of_ne (ms : List (Addr × Member)) (a x : Addr) (now : Nat)
    (hx : x ≠ a) : mget (markSuspect ms a now) x = mget ms x := by
  cases hm : mget ms a with
  | some ma =>
    simp only [markSuspect, hm]
    by_cases hs : ma.state = PeerState.active
    · rw [if_pos hs, mget_mupdate, if_neg hx]
    · rw [if_neg hs]
  | none => simp only [markSuspect, hm]

/-- `mark_dead` leaves a Dead member exactly as it is. -/
theorem markDead_dead (ms : List (Addr × Member)) (a : Addr) (now : Nat)
    (m : Member) (h : mget ms a = some m) (hs : m.state = PeerState.dead) :
    markDead ms a now = ms := by
  simp only [markDead, h]
  exact if_neg (fun hne => hne hs)

/-- `mark_dead` touches no address other than its argument. -/
theorem mget_markDead_of_ne (ms : List (Addr × Member)) (a x : Addr) (now : Nat)
    (hx : x ≠ a) : mget (markDead ms a now) x = mget ms x := by
  cases hm : mget ms a with
  | some ma =>
    simp only [markDead, hm]
    by_cases hs : ma.state = PeerState.dead
    · rw [if_neg (fun hne => hne hs)]
    · rw [if_pos hs, mget_mupdate, if_neg hx]
  | none => simp only [markDead, hm]

/-- `mark_suspect` never inserts the local address. -/
theorem mget_markSuspect_local (ms : List (Addr × Member)) (a L : Addr) (now : Nat)
    (h : mget ms L = none) : mget (markSuspect ms a now) L = none := by
  by_cases hx : L = a
  · subst hx
    rw [markSuspect_absent ms L now h]
    exact h
  · rw [mget_markSuspect_of_ne ms a L now hx]
    exact h

/-- `mark_dead` never inserts the local address. -/
theorem mget_markDead_local (ms : List (Addr × Member)) (a L : Addr) (now : Nat)
    (h : mget ms L = none) : mget (markDead ms a now) L = none := by
  by_cases hx : L = a
  · subst hx
    simp only [markDead, h]
  · rw [mget_markDead_of_ne ms a L now hx]
    exact h

/-- A Dead member is left untouched by a whole `mark_suspect` sweep. -/
theorem mget_foldl_markSuspect_dead (ts : List Addr) (ms : List (Addr × Member))
    (x : Addr) (now : Nat) (m : Member) (h : mget ms x = some m)
    (hs : m.state = PeerState.dead) :
    mget (ts.foldl (fun acc t => markSuspect acc t now) ms) x = some m := by
  induction ts generalizing ms with
  | nil => exact h
  | cons t ts ih =>
    simp only [List.foldl_cons]
    refine ih (markSuspect ms t now) ?_
    by_cases hx : x = t
    · subst hx
      rw [markSuspect_not_active ms x now m h (by rw [hs]; intro hc; cases hc), h]
    · rw [mget_markSuspect_of_ne ms t x now hx, h]

/-- A Dead member is left untouched by a whole `mark_dead` sweep. -/
theorem mget_foldl_markDead_dead (ts : List Addr) (ms : List (Addr × Member))
    (x : Addr) (now : Nat) (m : Member) (h : mget ms x = some m)
    (hs : m.state = PeerState.dead) :
    mget (ts.foldl (fun acc t => markDead acc t now) ms) x = some m := by
  induction ts generalizing ms with
  | nil => exact h
  | cons t ts ih =>
    simp only [List.foldl_cons]
    refine ih (markDead ms t now) ?_
    by_cases hx : x = t
    · subst hx
      rw [markDead_dead ms x now m h hs, h]
    · rw [mget_markDead_of_ne ms t x now hx, h]

/-- The local address stays absent under a `mark_suspect` sweep. -/
theorem mget_foldl_markSuspect_local (ts : List Addr) (ms : List (Addr × Member))
    (L : Addr) (now : Nat) (h : mget ms L = none) :
    mget (ts.foldl (fun acc t => markSuspect acc t now) ms) L = none := by
  induction ts generalizing ms with
  | nil => exact h
  | cons t ts ih =>
    simp only [List.foldl_cons]
    exact ih (markSuspect ms t now) (mget_markSuspect_local ms t L now h)

/-- The local address stays absent under a `mark_dead` sweep. -/
theorem mget_foldl_markDead_local (ts : List Addr) (ms : List (Addr × Member))
    (L : Addr) (now : Nat) (h : mget ms L = none) :
    mget (ts.foldl (fun acc t => markDead acc t now) ms) L = none := by
  induction ts generalizing ms with
  | nil => exact h
  | cons t ts ih =>
    simp only [List.foldl_cons]
    exact ih (markDead ms t now) (mget_markDead_local ms t L now h)

/-! ### Lemmas about swap-remove selection -/

theorem swapRemove_perm (l : List Nat) (i : Nat) (h : i < l.length) :
    (swapRemove l i).Perm (l.take i ++ l.drop (i + 1)) := by
  have hne : l ≠ [] := List.ne_nil_of_length_pos (Nat.lt_of_le_of_lt (Nat.zero_le i) h)
  have hlast : l.getLast? = some (l.getLast hne) := List.getLast?_eq_getLast l hne
  set L := l.dropLast with hL
  set b := l.getLast hne with hb
  have hdecomp : L ++ [b] = l := List.dropLast_append_getLast hne
  have hLlen : L.length + 1 = l.length := by
    rw [← hdecomp]; simp
  unfold swapRemove
  rw [hlast]
  show ((l.set i b).dropLast).Perm (l.take i ++ l.drop (i + 1))
  rcases Nat.lt_or_ge i L.length with hi | hi
  · -- overwrite a non-final slot, then drop the (still intact) last element
    have hset : l.set i b = L.set i b ++ [b] := by
      conv_lhs => rw [← hdecomp]
      rw [List.set_append, if_pos hi]
    rw [hset, List.dropLast_concat]
    have htake : l.take i = L.take i := by
      conv_lhs => rw [← hdecomp]
      exact List.take_append_of_le_length (Nat.le_of_lt hi)
    have hdrop : l.drop (i + 1) = L.drop (i + 1) ++ [b] := by
      conv_lhs => rw [← hdecomp]
      exact List.drop_append_of_le_length hi
    rw [htake, hdrop, List.set_eq_take_cons_drop b hi]
    exact List.Perm.append_left _ (List.perm_append_singleton b _).symm
  · -- i points at the last element: swap-remove is plain pop
    have hieq : i = L.length := Nat.le_antisymm (by omega) hi
    have hset : l.set i b = l := by
      conv_lhs => rw [← hdecomp]
      rw [List.set_append, if_neg (by omega), hieq]
      simpa using hdecomp
    rw [hset]
    have hdl : l.dropLast = l.take i ++ l.drop (i + 1) := by
      rw [List.drop_eq_nil_of_le (by omega), List.append_nil, hieq, ← hdecomp]
      simp [List.take_append_of_le_length]
    rw [hdl]

theorem swapRemove_length (l : List Nat) (i : Nat) (h : i < l.length) :
    (swapRemove l i).length = l.length - 1 := by
  rw [(swapRemove_perm l i h).length_eq]
  simp only [List.length_append, List.length_take, List.length_drop]
  omega

theorem mem_of_mem_swapRemove (l : List Nat) (i : Nat) (h : i < l.length)
    (x : Nat) (hx : x ∈ swapRemove l i) : x ∈ l := by
  have := (swapRemove_perm l i h).mem_iff.mp hx
  rcases List.mem_append.mp this with h1 | h1
  · exact List.take_subset _ _ h1
  · exact List.drop_subset _ _ h1

/-- Decomposition of a list around index `i`. -/
theorem take_getElem_drop (l : List Nat) (i : Nat) (h : i < l.length) :
    l.take i ++ l[i] :: l.drop (i + 1) = l := by
  rw [← List.drop_eq_getElem_cons h, List.take_append_drop]

theorem nodup_swapRemove (l : List Nat) (i : Nat) (h : i < l.length)
    (hn : l.Nodup) : (swapRemove l i).Nodup := by
  have hd := take_getElem_drop l i h
  rw [← hd] at hn
  have := List.nodup_middle.mp hn
  exact (swapRemove_perm l i h).nodup_iff.mpr (List.nodup_cons.mp this).2

theorem getElem_not_mem_swapRemove (l : List Nat) (i : Nat) (h : i < l.length)
    (hn : l.Nodup) : l[i] ∉ swapRemove l i := by
  have hd := take_getElem_drop l i h
  rw [← hd] at hn
  have := List.nodup_middle.mp hn
  intro hmem
  exact (List.nodup_cons.mp this).1 ((swapRemove_perm l i h).subset hmem)

/-- The selection loop returns `k` pairwise-distinct indices drawn from the
index list, whenever `k` does not exceed the number available. -/
theorem selectIdx_spec (k : Nat) : ∀ (rng indices : List Nat),
    k ≤ indices.length → indices.Nodup →
    (selectIdx rng k indices).length = k ∧ (selectIdx rng k indices).Nodup ∧
      ∀ x ∈ selectIdx rng k indices, x ∈ indices := by
  induction k with
  | zero => intro rng indices _ _; exact ⟨rfl, List.nodup_nil, by intro x hx; cases hx⟩
  | succ k ih =>
    intro rng indices hk hnd
    have hpos : 0 < indices.length := Nat.lt_of_lt_of_le (Nat.succ_pos k) hk
    have hidx : rng.headD 0 % indices.length < indices.length := Nat.mod_lt _ hpos
    have hrest : (swapRemove indices (rng.headD 0 % indices.length)).length =
        indices.length - 1 := swapRemove_length _ _ hidx
    have hkrest : k ≤ (swapRemove indices (rng.headD 0 % indices.length)).length := by
      omega
    have hndrest : (swapRemove indices (rng.headD 0 % indices.length)).Nodup :=
      nodup_swapRemove _ _ hidx hnd
    obtain ⟨ihlen, ihnd, ihsub⟩ := ih rng.tail _ hkrest hndrest
    have hgetD : indices.getD (rng.headD 0 % indices.length) 0 =
        indices[rng.headD 0 % indices.length] := List.getD_eq_getElem _ _ hidx
    have hsel : selectIdx rng (k + 1) indices =
        indices.getD (rng.headD 0 % indices.length) 0 ::
          selectIdx rng.tail k (swapRemove indices (rng.headD 0 % indices.length)) := rfl
    refine ⟨?_, ?_, ?_⟩
    · rw [hsel, List.length_cons, ihlen]
    · rw [hsel, List.nodup_cons]
      refine ⟨?_, ihnd⟩
      rw [hgetD]
      intro hmem
      exact getElem_not_mem_swapRemove _ _ hidx hnd (ihsub _ hmem)
    · intro x hx
      rw [hsel] at hx
      rcases List.mem_cons.mp hx with hx | hx
      · rw [hx, hgetD]; exact List.getElem_mem hidx
      · exact mem_of_mem_swapRemove _ _ hidx x (ihsub x hx)

/-! ### Characterization of send_indirect_probes -/

theorem eligibleOthers_nodup (ms : List (Addr × Member)) (target : Addr)
    (hnd : (ms.map (·.1)).Nodup) : (eligibleOthers ms target).Nodup := by
  unfold eligibleOthers
  exact ((List.filter_sublist ms).map (·.1)).nodup hnd

/-- Full characterization of the PingReq batch produced by
`send_indirect_probes`: `min 3 |eligible|` messages, pairwise-distinct
recipients all drawn from the eligible set, every message the same
`PingReq(seq, from=local, target)`, and nothing at all when no eligible
member exists. -/
theorem indirectBatch_spec (ms : List (Addr × Member)) (L target : Addr)
    (seq : Nat) (rng : List Nat) (hnd : (ms.map (·.1)).Nodup) :
    ((indirectBatch ms L target seq rng).1).length
        = min INDIRECT_PROBE_COUNT (eligibleOthers ms target).length ∧
    (((indirectBatch ms L target seq rng).1).map (·.2)).Nodup ∧
    (∀ x ∈ ((indirectBatch ms L target seq rng).1).map (·.2),
        x ∈ eligibleOthers ms target) ∧
    (∀ e ∈ (indirectBatch ms L target seq rng).1,
        e.1 = Message.pingReq seq L target) ∧
    (eligibleOthers ms target = [] → (indirectBatch ms L target seq rng).1 = []) := by
  by_cases hempty : eligibleOthers ms target = []
  · refine ⟨?_, ?_, ?_, ?_, fun _ => ?_⟩ <;>
      simp [indirectBatch, hempty]
  · have hothers := eligibleOthers_nodup ms target hnd
    set others := eligibleOthers ms target with hothersdef
    set count := min others.length INDIRECT_PROBE_COUNT with hcount
    have hcle : count ≤ (List.range others.length).length := by
      rw [List.length_range]
      exact Nat.min_le_left _ _
    obtain ⟨hlen, hndc, hsub⟩ :=
      selectIdx_spec count rng (List.range others.length) hcle (List.nodup_range _)
    set chosen := selectIdx rng count (List.range others.length) with hchosen
    have hlt : ∀ i ∈ chosen, i < others.length := by
      intro i hi
      exact List.mem_range.mp (hsub i hi)
    have hbatch : (indirectBatch ms L target seq rng).1 =
        chosen.map (fun i => (Message.pingReq seq L target, others.getD i 0)) := by
      simp only [indirectBatch]
      rw [if_neg hempty]
    refine ⟨?_, ?_, ?_, ?_, fun he => absurd he hempty⟩
    · rw [hbatch, List.length_map, hlen, hcount, Nat.min_comm]
    · rw [hbatch, List.map_map]
      refine List.Nodup.map_on ?_ hndc
      intro i hi j hj hij
      have hi2 := hlt i hi
      have hj2 := hlt j hj
      simp only [Function.comp] at hij
      rw [List.getD_eq_getElem _ _ hi2, List.getD_eq_getElem _ _ hj2] at hij
      exact (List.Nodup.getElem_inj_iff hothers).mp hij
    · intro x hx
      rw [hbatch, List.map_map] at hx
      obtain ⟨i, hi, hix⟩ := List.mem_map.mp hx
      have hi2 := hlt i hi
      simp only [Function.comp] at hix
      rw [List.getD_eq_getElem _ _ hi2] at hix
      rw [← hix]
      exact List.getElem_mem hi2
    · intro e he
      rw [hbatch] at he
      obtain ⟨i, _, hie⟩ := List.mem_map.mp he
      rw [← hie]

/-! ### Characterization of check_probe_timeouts -/

/-- The mutation the need-indirect loop applies to the probe list, summed
over the whole loop: a probe whose target had a first-time expiry gets its
indirect flag set and its timer reset. -/
def resetForTargets (now : Nat) (ts : List Addr) (p : PendingProbe) : PendingProbe :=
  if p.target ∈ ts then { p with indirect_sent := true, sent_at := now } else p

/-- The messages queued by the need-indirect loop: one
`send_indirect_probes` batch per (target, seq) pair, threading the rng. -/
def scheduleAll (ms : List (Addr × Member)) (L : Addr) :
    List (Addr × Nat) → List Nat → List (Message × Addr) × List Nat
  | [], rng => ([], rng)
  | ts :: rest, rng =>
    let b := indirectBatch ms L ts.1 ts.2 rng
    let s := scheduleAll ms L rest b.2
    (b.1 ++ s.1, s.2)

theorem resetForTargets_nil (now : Nat) (p : PendingProbe) :
    resetForTargets now [] p = p := by
  simp [resetForTargets]

theorem resetForTargets_cons (now : Nat) (t : Addr) (ts : List Addr)
    (p : PendingProbe) :
    resetForTargets now ts
        (if p.target = t then { p with indirect_sent := true, sent_at := now } else p) =
      resetForTargets now (t :: ts) p := by
  by_cases h : p.target = t
  · rw [if_pos h]
    simp only [resetForTargets, List.mem_cons, h, true_or, if_pos]
    split <;> rfl
  · rw [if_neg h]
    simp only [resetForTargets, List.mem_cons]
    by_cases h2 : p.target ∈ ts
    · simp [h2]
    · simp [h2, h]

theorem phase1_eq (ms : List (Addr × Member)) (L : Addr) (now : Nat)
    (pairs : List (Addr × Nat)) :
    ∀ (ps : List PendingProbe) (q : List (Message × Addr)) (r : List Nat),
    pairs.foldl
      (fun (acc : List PendingProbe × List (Message × Addr) × List Nat) ts =>
        let b := indirectBatch ms L ts.1 ts.2 acc.2.2
        (acc.1.map (fun p =>
            if p.target = ts.1 then { p with indirect_sent := true, sent_at := now } else p),
         acc.2.1 ++ b.1, b.2))
      (ps, q, r)
    = (ps.map (resetForTargets now (pairs.map (·.1))),
       q ++ (scheduleAll ms L pairs r).1,
       (scheduleAll ms L pairs r).2) := by
  induction pairs with
  | nil =>
    intro ps q r
    have hmap : ps.map (resetForTargets now []) = ps :=
      (List.map_congr_left (fun a _ => resetForTargets_nil now a)).trans (List.map_id ps)
    simp only [List.foldl_nil, scheduleAll, List.map_nil, hmap, List.append_nil]
  | cons ts rest ih =>
    intro ps q r
    simp only [List.foldl_cons, List.map_cons]
    rw [ih]
    simp only [scheduleAll, List.map_map]
    refine congrArg₂ _ ?_ (by rw [List.append_assoc])
    refine List.map_congr_left ?_
    intro p _
    exact resetForTargets_cons now ts.1 (rest.map (·.1)) p

theorem phase2_eq (now : Nat) (ts : List Addr) :
    ∀ (ms : List (Addr × Member)) (mt : LatencyMetrics),
    ts.foldl (fun acc t => (markSuspect acc.1 t now, recordTimeout acc.2)) (ms, mt)
    = (ts.foldl (fun acc t => markSuspect acc t now) ms,
       { mt with timeouts := mt.timeouts + ts.length }) := by
  induction ts with
  | nil => intro ms mt; simp
  | cons t rest ih =>
    intro ms mt
    simp only [List.foldl_cons]
    rw [ih]
    simp only [recordTimeout, List.length_cons]
    refine congrArg _ ?_
    congr 1
    omega

/-- Closed form of `Node::check_probe_timeouts`. -/
theorem checkProbeTimeouts_spec (n : Node) (now : Nat) (rng : List Nat) :
    checkProbeTimeouts n now rng = { n with
      members := { n.members with
        members := ((n.probes.filter (expiredIndirect now)).map (fun p => p.target)).foldl
          (fun acc t => markSuspect acc t now) n.members.members }
      metrics := { n.metrics with
        timeouts := n.metrics.timeouts +
          ((n.probes.filter (expiredIndirect now)).map (fun p => p.target)).length }
      probes := (n.probes.map (resetForTargets now
          ((n.probes.filter (expiredDirect now)).map (fun p => p.target)))).filter
          (retainProbe now)
      send_queue := n.send_queue ++ (scheduleAll n.members.members n.local_addr
          ((n.probes.filter (expiredDirect now)).map (fun p => (p.target, p.seq))) rng).1 } := by
  simp only [checkProbeTimeouts, phase1_eq, phase2_eq]
  simp [List.map_map, Function.comp_def]

/-! ### Small projection facts about the step functions -/

theorem local_addr_sendPing (n : Node) (t : Addr) (now : Nat) :
    (sendPing n t now).local_addr = n.local_addr := rfl

theorem members_sendPing (n : Node) (t : Addr) (now : Nat) :
    (sendPing n t now).members.members = n.members.members := rfl

theorem local_addr_handleMessage (n : Node) (msg : Message) (now : Nat) :
    (handleMessage n msg now).local_addr = n.local_addr := by
  cases msg <;> rfl

theorem checkSuspectTimeouts_members (n : Node) (now : Nat) :
    (checkSuspectTimeouts n now).members.members =
      ((n.members.members.filter
        (fun km => decide (km.2.state = PeerState.suspect) &&
                   decide (SUSPECT_TIMEOUT < now - km.2.last_state_change))).map (·.1)).foldl
        (fun ms a => markDead ms a now) n.members.members := rfl

theorem checkSuspectTimeouts_probes (n : Node) (now : Nat) :
    (checkSuspectTimeouts n now).probes = n.probes := rfl

theorem checkSuspectTimeouts_metrics (n : Node) (now : Nat) :
    (checkSuspectTimeouts n now).metrics = n.metrics := rfl

theorem checkSuspectTimeouts_local (n : Node) (now : Nat) :
    (checkSuspectTimeouts n now).local_addr = n.local_addr := rfl

theorem probeRandomMember_members (n : Node) (now r : Nat) :
    (probeRandomMember n now r).members.members = n.members.members := by
  simp only [probeRandomMember]
  split
  · rfl
  · split <;> rfl

theorem probeRandomMember_local (n : Node) (now r : Nat) :
    (probeRandomMember n now r).local_addr = n.local_addr := by
  simp only [probeRandomMember]
  split
  · rfl
  · split <;> rfl

theorem checkProbeTimeouts_local (n : Node) (now : Nat) (rng : List Nat) :
    (checkProbeTimeouts n now rng).local_addr = n.local_addr := by
  rw [checkProbeTimeouts_spec]

theorem local_addr_step (n : Node) (e : Event) :
    (step n e).local_addr = n.local_addr := by
  cases e with
  | send t now => rfl
  | recv msg now => exact local_addr_handleMessage n msg now
  | tickAt now rng r =>
    show (probeRandomMember (checkSuspectTimeouts (checkProbeTimeouts n now rng) now) now r).local_addr = _
    rw [probeRandomMember_local, checkSuspectTimeouts_local, checkProbeTimeouts_local]

/-! ### The local address never enters the membership table -/

/-- Invariant backing claim C3. -/
def LocalAbsent (n : Node) : Prop :=
  mget n.members.members n.local_addr = none

theorem localAbsent_step (n : Node) (e : Event) (h : LocalAbsent n) :
    LocalAbsent (step n e) := by
  unfold LocalAbsent at h ⊢
  rw [local_addr_step]
  cases e with
  | send t now => exact h
  | recv msg now =>
    cases msg with
    | ping seq s => exact mget_ensureMember_local _ _ _ _ h
    | ack seq s => exact mget_markActive_local _ _ _ _ h
    | pingReq seq s t => exact mget_ensureMember_local _ _ _ _ h
  | tickAt now rng r =>
    show mget (probeRandomMember (checkSuspectTimeouts (checkProbeTimeouts n now rng) now) now r).members.members _ = none
    rw [probeRandomMember_members, checkSuspectTimeouts_members]
    refine mget_foldl_markDead_local _ _ _ _ ?_
    have h1 : mget (checkProbeTimeouts n now rng).members.members n.local_addr = none := by
      rw [checkProbeTimeouts_spec]
      exact mget_foldl_markSuspect_local _ _ _ _ h
    exact h1

theorem localAbsent_run (n : Node) (events : List Event) (h : LocalAbsent n) :
    LocalAbsent (run n events) := by
  induction events generalizing n with
  | nil => exact h
  | cons e events ih => exact ih (step n e) (localAbsent_step n e h)

theorem local_addr_run (n : Node) (events : List Event) :
    (run n events).local_addr = n.local_addr := by
  induction events generalizing n with
  | nil => rfl
  | cons e events ih => rw [run, List.foldl_cons, ← run, ih, local_addr_step]

/-! ### Counter invariant: every ack increment consumes a probe -/

/-- Invariant backing claims C2 and C8: the sample ring never holds more
samples than acks were counted, and every counted ack retired a pending
probe that some counted ping had created. -/
def CounterInv (n : Node) : Prop :=
  n.metrics.samples.length ≤ n.metrics.acks_received ∧
  n.metrics.acks_received + n.probes.length ≤ n.metrics.pings_sent

theorem counterInv_sendPing (n : Node) (t : Addr) (now : Nat)
    (h : CounterInv n) : CounterInv (sendPing n t now) := by
  obtain ⟨h1, h2⟩ := h
  constructor
  · exact h1
  · show n.metrics.acks_received + (n.probes ++ [_]).length ≤ n.metrics.pings_sent + 1
    simp only [List.length_append, List.length_cons, List.length_nil]
    omega

theorem counterInv_handleMessage (n : Node) (msg : Message) (now : Nat)
    (h : CounterInv n) : CounterInv (handleMessage n msg now) := by
  obtain ⟨h1, h2⟩ := h
  cases msg with
  | ping seq s => exact ⟨h1, h2⟩
  | pingReq seq s t => exact ⟨h1, h2⟩
  | ack seq s =>
    simp only [handleMessage]
    cases hm : n.probes.find? (fun p => decide (p.seq = seq) && decide (p.target = s)) with
    | some p =>
      have hmem := List.mem_of_find?_eq_some hm
      have hpred := List.find?_some hm
      have hlt : (n.probes.filter
          (fun p => !(decide (p.seq = seq) && decide (p.target = s)))).length <
          n.probes.length := by
        rw [List.length_filter_lt_length_iff_exists]
        exact ⟨p, hmem, by simp [hpred]⟩
      constructor
      · show (recordRtt n.metrics _).samples.length ≤ (recordRtt n.metrics _).acks_received
        simp only [recordRtt, List.length_append, List.length_cons, List.length_nil]
        split
        · rw [List.length_tail]; omega
        · omega
      · show (recordRtt n.metrics _).acks_received + _ ≤ (recordRtt n.metrics _).pings_sent
        simp only [recordRtt]
        omega
    | none =>
      exact ⟨h1, Nat.le_trans
        (Nat.add_le_add_left (List.length_filter_le _ _) _) h2⟩

theorem counterInv_checkProbeTimeouts (n : Node) (now : Nat) (rng : List Nat)
    (h : CounterInv n) : CounterInv (checkProbeTimeouts n now rng) := by
  obtain ⟨h1, h2⟩ := h
  rw [checkProbeTimeouts_spec]
  constructor
  · exact h1
  · refine Nat.le_trans (Nat.add_le_add_left ?_ _) h2
    exact Nat.le_trans (List.length_filter_le _ _) (by rw [List.length_map])

theorem counterInv_probeRandomMember (n : Node) (now r : Nat)
    (h : CounterInv n) : CounterInv (probeRandomMember n now r) := by
  simp only [probeRandomMember]
  split
  · exact h
  · split
    · exact h
    · exact counterInv_sendPing _ _ _ h

theorem counterInv_step (n : Node) (e : Event) (h : CounterInv n) :
    CounterInv (step n e) := by
  cases e with
  | send t now => exact counterInv_sendPing n t now h
  | recv msg now => exact counterInv_handleMessage n msg now h
  | tickAt now rng r =>
    show CounterInv (probeRandomMember (checkSuspectTimeouts (checkProbeTimeouts n now rng) now) now r)
    refine counterInv_probeRandomMember _ _ _ ?_
    have hc := counterInv_checkProbeTimeouts n now rng h
    unfold CounterInv at hc ⊢
    rw [checkSuspectTimeouts_metrics, checkSuspectTimeouts_probes]
    exact hc

theorem counterInv_run (n : Node) (events : List Event) (h : CounterInv n) :
    CounterInv (run n events) := by
  induction events generalizing n with
  | nil => exact h
  | cons e events ih => exact ih (step n e) (counterInv_step n e h)

theorem counterInv_init (localAddr : Addr) : CounterInv (Node.init localAddr) := by
  constructor <;> simp [Node.init]

/-! ### Dead members never step straight to Suspect -/

theorem markActive_present_not_active (L : Addr) (ms : List (Addr × Member))
    (a : Addr) (now : Nat) (m : Member) (h : mget ms a = some m)
    (hs : m.state ≠ PeerState.active) :
    mget (markActive L ms a now) a =
      some { m with state := PeerState.active, last_state_change := now } := by
  simp only [markActive, h]
  rw [if_pos hs, mget_mupdate, if_pos rfl, h]
  rfl

/-- Over any single event, a member recorded Dead beforehand is afterwards
either unchanged or Active (via an Ack) — never Suspect. -/
theorem dead_step_cases (n : Node) (e : Event) (x : Addr) (m : Member)
    (h : mget n.members.members x = some m) (hs : m.state = PeerState.dead) :
    mget (step n e).members.members x = some m ∨
      ∃ now, mget (step n e).members.members x =
        some { m with state := PeerState.active, last_state_change := now } := by
  cases e with
  | send t now =>
    left
    exact h
  | recv msg now =>
    cases msg with
    | ping seq s =>
      left
      exact mget_ensureMember_of_isSome _ _ _ _ _ _ h
    | pingReq seq s t =>
      left
      exact mget_ensureMember_of_isSome _ _ _ _ _ _ h
    | ack seq s =>
      by_cases hx : x = s
      · right
        subst hx
        exact ⟨now, markActive_present_not_active _ _ _ _ m h (by rw [hs]; intro hc; cases hc)⟩
      · left
        exact mget_markActive_of_ne _ _ _ _ _ hx m h
  | tickAt now rng r =>
    left
    show mget (probeRandomMember (checkSuspectTimeouts (checkProbeTimeouts n now rng) now) now r).members.members x = some m
    rw [probeRandomMember_members, checkSuspectTimeouts_members]
    refine mget_foldl_markDead_dead _ _ _ _ m ?_ hs
    rw [checkProbeTimeouts_spec]
    exact mget_foldl_markSuspect_dead _ _ _ _ m h hs

/-! ### Lemmas about the latency statistics -/

theorem sortedSamples_perm (m : LatencyMetrics) :
    (sortedSamples m).Perm m.samples :=
  List.perm_insertionSort _ _

theorem sortedSamples_sorted (m : LatencyMetrics) :
    List.Sorted (· ≤ ·) (sortedSamples m) :=
  List.sorted_insertionSort _ _

theorem sortedSamples_length (m : LatencyMetrics) :
    (sortedSamples m).length = m.samples.length :=
  (sortedSamples_perm m).length_eq

theorem sorted_getElem_le (l : List Nat) (hs : List.Sorted (· ≤ ·) l)
    (i j : Nat) (hi : i < l.length) (hj : j < l.length) (hij : i ≤ j) :
    l[i] ≤ l[j] := by
  rcases Nat.lt_or_eq_of_le hij with hlt | heq
  · exact List.pairwise_iff_getElem.mp hs i j hi hj hlt
  · subst heq
    exact Nat.le_refl _

theorem stats_eq_none_iff (m : LatencyMetrics) :
    stats m = none ↔ m.samples = [] := by
  constructor
  · intro h
    by_contra hne
    simp [stats, hne] at h
  · intro h
    simp [stats, h]

/-- Closed form of `stats` on a non-empty ring. -/
theorem stats_of_ne_nil (m : LatencyMetrics) (hne : m.samples ≠ []) :
    stats m = some
      { min := (sortedSamples m).getD 0 0
        max := (sortedSamples m).getD ((sortedSamples m).length - 1) 0
        mean := (sortedSamples m).sum / (sortedSamples m).length
        p50 := (sortedSamples m).getD (p50Index (sortedSamples m).length) 0
        p95 := (sortedSamples m).getD (p95Index (sortedSamples m).length) 0
        p99 := (sortedSamples m).getD (p99Index (sortedSamples m).length) 0
        sample_count := (sortedSamples m).length } := by
  simp [stats, hne]

theorem p50Index_eq_min (n : Nat) (h : 1 ≤ n) :
    p50Index n = min (n * 50 / 100) (n - 1) := by
  unfold p50Index
  omega

theorem p95Index_eq_min (n : Nat) (h : 1 ≤ n) :
    p95Index n = min (n * 95 / 100) (n - 1) := by
  unfold p95Index
  omega

theorem p99Index_eq_min (n : Nat) :
    p99Index n = min (n * 99 / 100) (n - 1) := rfl

theorem p50Index_lt (n : Nat) (h : 1 ≤ n) : p50Index n < n := by
  unfold p50Index
  omega

theorem p95Index_lt (n : Nat) (h : 1 ≤ n) : p95Index n < n := by
  unfold p95Index
  omega

theorem p99Index_lt (n : Nat) (h : 1 ≤ n) : p99Index n < n := by
  unfold p99Index
  omega

/-- The content of claim C7 on a non-empty ring, as one helper. -/
theorem stats_spec (m : LatencyMetrics) (hne : m.samples ≠ []) :
    ∃ s, stats m = some s ∧
      s.sample_count = m.samples.length ∧
      s.min ∈ m.samples ∧ (∀ x ∈ m.samples, s.min ≤ x) ∧
      s.max ∈ m.samples ∧ (∀ x ∈ m.samples, x ≤ s.max) ∧
      s.p50 = (sortedSamples m).getD (min (m.samples.length * 50 / 100) (m.samples.length - 1)) 0 ∧
      s.p95 = (sortedSamples m).getD (min (m.samples.length * 95 / 100) (m.samples.length - 1)) 0 ∧
      s.p99 = (sortedSamples m).getD (min (m.samples.length * 99 / 100) (m.samples.length - 1)) 0 := by
  have hlen := sortedSamples_length m
  have hpos : 0 < m.samples.length := List.length_pos.mpr hne
  have hpos2 : 0 < (sortedSamples m).length := by omega
  have hsorted := sortedSamples_sorted m
  have hperm := sortedSamples_perm m
  refine ⟨_, stats_of_ne_nil m hne, ?_, ?_, ?_, ?_, ?_, ?_, ?_, ?_⟩
  · exact hlen
  · show (sortedSamples m).getD 0 0 ∈ m.samples
    rw [List.getD_eq_getElem _ _ hpos2]
    exact hperm.mem_iff.mp (List.getElem_mem hpos2)
  · intro x hx
    show (sortedSamples m).getD 0 0 ≤ x
    rw [List.getD_eq_getElem _ _ hpos2]
    obtain ⟨i, hi, hix⟩ := List.mem_iff_getElem.mp (hperm.mem_iff.mpr hx)
    rw [← hix]
    exact sorted_getElem_le _ hsorted 0 i hpos2 hi (Nat.zero_le i)
  · show (sortedSamples m).getD ((sortedSamples m).length - 1) 0 ∈ m.samples
    rw [List.getD_eq_getElem _ _ (by omega)]
    exact hperm.mem_iff.mp (List.getElem_mem (by omega))
  · intro x hx
    show x ≤ (sortedSamples m).getD ((sortedSamples m).length - 1) 0
    rw [List.getD_eq_getElem _ _ (by omega)]
    obtain ⟨i, hi, hix⟩ := List.mem_iff_getElem.mp (hperm.mem_iff.mpr hx)
    rw [← hix]
    exact sorted_getElem_le _ hsorted i _ hi (by omega) (by omega)
  · show (sortedSamples m).getD (p50Index (sortedSamples m).length) 0 = _
    rw [hlen, p50Index_eq_min _ hpos]
  · show (sortedSamples m).getD (p95Index (sortedSamples m).length) 0 = _
    rw [hlen, p95Index_eq_min _ hpos]
  · show (sortedSamples m).getD (p99Index (sortedSamples m).length) 0 = _
    rw [hlen, p99Index_eq_min]

/-! ### Lemmas about the ack handler -/

theorem handleAck_matched (n : Node) (seq : Nat) (s : Addr) (now : Nat)
    (p : PendingProbe)
    (hm : n.probes.find? (fun p => decide (p.seq = seq) && decide (p.target = s)) = some p) :
    (handleMessage n (Message.ack seq s) now).metrics.acks_received =
        n.metrics.acks_received + 1 ∧
    (handleMessage n (Message.ack seq s) now).metrics.samples =
      (if n.metrics.max_samples ≤ n.metrics.samples.length then n.metrics.samples.tail
       else n.metrics.samples) ++ [now - p.sent_at] := by
  constructor <;> simp [handleMessage, hm, recordRtt]

theorem handleAck_unmatched (n : Node) (seq : Nat) (s : Addr) (now : Nat)
    (hm : n.probes.find? (fun p => decide (p.seq = seq) && decide (p.target = s)) = none) :
    (handleMessage n (Message.ack seq s) now).metrics = n.metrics := by
  simp [handleMessage, hm]

theorem find?_probe_iff (n : Node) (seq : Nat) (s : Addr) :
    (n.probes.find? (fun p => decide (p.seq = seq) && decide (p.target = s))).isSome ↔
      ∃ p ∈ n.probes, p.seq = seq ∧ p.target = s := by
  rw [List.find?_isSome]
  constructor
  · rintro ⟨p, hp, hpred⟩
    exact ⟨p, hp, by simpa using hpred⟩
  · rintro ⟨p, hp, h1, h2⟩
    exact ⟨p, hp, by simp [h1, h2]⟩

/-- Ack handling marks the (non-local, or already present) sender Active. -/
theorem handleAck_marks_active (n : Node) (seq : Nat) (s : Addr) (now : Nat)
    (hs : s ≠ n.local_addr) :
    ∃ m, mget (handleMessage n (Message.ack seq s) now).members.members s = some m ∧
      m.state = PeerState.active := by
  show ∃ m, mget (markActive n.local_addr n.members.members s now) s = some m ∧
      m.state = PeerState.active
  exact markActive_mem_active n.local_addr n.members.members s now hs

/-- A Ping from an already-present peer leaves the member table unchanged. -/
theorem handlePing_members_present (n : Node) (seq : Nat) (a : Addr) (now : Nat)
    (m : Member) (h : mget n.members.members a = some m) :
    (handleMessage n (Message.ping seq a) now).members.members = n.members.members := by
  show ensureMember n.local_addr n.members.members a now = n.members.members
  unfold ensureMember
  rw [if_neg]
  intro hc
  rw [h] at hc
  exact Option.noConfusion hc.2

/-! ### Concrete fixtures for witnesses and counterexamples -/

/-- A node that already knows peer 1 as Dead (fixture for claim C1). -/
def nodeC1 : Node :=
  { local_addr := 0
    members := ⟨0, [(1, ⟨PeerState.dead, 0, 0⟩)]⟩
    probes := []
    send_queue := []
    metrics := ⟨[], 1000, 0, 0, 0⟩ }

/-- A node with four Active members and one Suspect (fixture for claim C6). -/
def nodeC6 : Node :=
  { local_addr := 0
    members := ⟨0, [(1, ⟨PeerState.active, 0, 0⟩), (2, ⟨PeerState.active, 0, 0⟩),
      (3, ⟨PeerState.active, 0, 0⟩), (4, ⟨PeerState.suspect, 0, 0⟩),
      (5, ⟨PeerState.active, 0, 0⟩)]⟩
    probes := []
    send_queue := []
    metrics := ⟨[], 1000, 0, 0, 0⟩ }

/-- A metrics value with three samples (fixture for claim C7). -/
def metricsC7 : LatencyMetrics := ⟨[3, 1, 2], 1000, 0, 0, 0⟩

/-- The stats of `metricsC7` (fixture for claim C7). -/
def statsC7 : LatencyStats := ⟨1, 3, 2, 2, 3, 3, 3⟩

/-- A node with one pending probe (fixture for claim C8). -/
def nodeC8 : Node :=
  { local_addr := 0
    members := ⟨0, []⟩
    probes := [⟨2, 9, 10, false⟩]
    send_queue := []
    metrics := ⟨[], 1000, 0, 0, 0⟩ }

/-- A metrics value with two samples (fixture for claim C10). -/
def metricsC10 : LatencyMetrics := ⟨[5, 7], 1000, 0, 0, 0⟩

/-! ### Claim C1 -/

/-- C1 counterexample: a node whose member 1 is Dead handles
`Ping(seq=5, from=1)`; the record stays Dead, not Active as the claim
states (the Ping arm only calls `ensure_member`, which skips present
members). -/
theorem c1_counterexample :
    (mget (handleMessage nodeC1 (Message.ping 5 1) 10).members.members 1).map Member.state
        = some PeerState.dead ∧
    (mget (handleMessage nodeC1 (Message.ping 5 1) 10).members.members 1).map Member.state
        ≠ some PeerState.active := by
  constructor
  · rfl
  · decide

/-- C1 (amended): receiving a Ping from a peer that is already in the
membership table — in particular one recorded Dead — leaves the table
completely unchanged; a Ping does not resurrect a Dead member (only an Ack
does, via `mark_active`). -/
theorem c1_ping_does_not_resurrect (n : Node) (seq : Nat) (a : Addr) (now : Nat)
    (m : Member) (h : mget n.members.members a = some m) :
    (handleMessage n (Message.ping seq a) now).members.members = n.members.members ∧
    mget (handleMessage n (Message.ping seq a) now).members.members a = some m := by
  have he := handlePing_members_present n seq a now m h
  exact ⟨he, by rw [he]; exact h⟩

/-- C1 witness: the amended claim applied to the concrete Dead member. -/
theorem c1_witness :
    (handleMessage nodeC1 (Message.ping 5 1) 10).members.members = nodeC1.members.members ∧
    mget (handleMessage nodeC1 (Message.ping 5 1) 10).members.members 1
      = some ⟨PeerState.dead, 0, 0⟩ :=
  c1_ping_does_not_resurrect nodeC1 5 1 10 ⟨PeerState.dead, 0, 0⟩ rfl

/-! ### Claim C2 -/

/-- C2 counterexample: the claimed execution does not exist — there is no
finite sequence of sends, ticks and inbound messages from a fresh node after
which `acks_received` exceeds `pings_sent`. -/
theorem c2_counterexample :
    ¬ ∃ (localAddr : Addr) (events : List Event),
        (run (Node.init localAddr) events).metrics.pings_sent <
          (run (Node.init localAddr) events).metrics.acks_received := by
  rintro ⟨la, evs, hlt⟩
  have h := counterInv_run (Node.init la) evs (counterInv_init la)
  have hle : (run (Node.init la) evs).metrics.acks_received ≤
      (run (Node.init la) evs).metrics.pings_sent :=
    Nat.le_trans (Nat.le_add_right _ _) h.2
  exact absurd hlt (Nat.not_lt.mpr hle)

/-- C2 (amended): `acks_received ≤ pings_sent` IS an invariant of every
reachable execution (each `acks_received` increment consumes a matching
pending probe and probes are created only by counted direct pings), and
`pings_sent` is incremented only for direct local-origin pings — no inbound
message, in particular no relayed PingReq ping, increments it. -/
theorem c2_acks_le_pings :
    (∀ (localAddr : Addr) (events : List Event),
        (run (Node.init localAddr) events).metrics.acks_received ≤
          (run (Node.init localAddr) events).metrics.pings_sent) ∧
    (∀ (n : Node) (msg : Message) (now : Nat),
        (handleMessage n msg now).metrics.pings_sent = n.metrics.pings_sent) ∧
    (∀ (n : Node) (t : Addr) (now : Nat),
        (sendPing n t now).metrics.pings_sent = n.metrics.pings_sent + 1) := by
  refine ⟨?_, ?_, fun n t now => rfl⟩
  · intro la evs
    have h := counterInv_run (Node.init la) evs (counterInv_init la)
    exact Nat.le_trans (Nat.le_add_right _ _) h.2
  · intro n msg now
    cases msg with
    | ping seq s => rfl
    | pingReq seq s t => rfl
    | ack seq s =>
      cases hm : n.probes.find? (fun p => decide (p.seq = seq) && decide (p.target = s)) with
      | some p => simp [handleMessage, hm, recordRtt]
      | none => simp [handleMessage, hm]

/-! ### Claim C3 -/

/-- C3: for every finite sequence of events (inbound Ping / Ack / PingReq
with arbitrary fields, including the local address, plus ticks and local
sends), the local address never appears as a key of the membership table. -/
theorem c3_local_never_in_table (localAddr : Addr) (events : List Event) :
    mget (run (Node.init localAddr) events).members.members localAddr = none := by
  have h := localAbsent_run (Node.init localAddr) events rfl
  unfold LocalAbsent at h
  rw [local_addr_run] at h
  exact h

/-! ### Claim C4 -/

/-- C4: in the probe-timeout scan of a tick, (a) each pending probe that is
past PROBE_TIMEOUT with `indirect_sent` false triggers one indirect-probe
batch for its (target, seq), in scan order; (b) every probe whose target had
such a first-time expiry gets `indirect_sent := true` and `sent_at := now`
(that is the `resetForTargets` mutation); (c) a probe remains pending after
the scan iff its possibly-reset `sent_at` is within PROBE_TIMEOUT of the
scan time or its flag is still false; (d) each probe past PROBE_TIMEOUT with
`indirect_sent` true leads to `mark_suspect(target)` and exactly one
timeout-counter increment. -/
theorem c4_probe_timeout_scan (n : Node) (now : Nat) (rng : List Nat) :
    (checkProbeTimeouts n now rng).send_queue =
      n.send_queue ++ (scheduleAll n.members.members n.local_addr
        ((n.probes.filter (expiredDirect now)).map (fun p => (p.target, p.seq))) rng).1 ∧
    (checkProbeTimeouts n now rng).probes =
      (n.probes.map (resetForTargets now
        ((n.probes.filter (expiredDirect now)).map (fun p => p.target)))).filter
        (retainProbe now) ∧
    (∀ p, p ∈ (checkProbeTimeouts n now rng).probes ↔
      ((∃ q ∈ n.probes, resetForTargets now
          ((n.probes.filter (expiredDirect now)).map (fun p => p.target)) q = p) ∧
        retainProbe now p = true)) ∧
    (checkProbeTimeouts n now rng).members.members =
      ((n.probes.filter (expiredIndirect now)).map (fun p => p.target)).foldl
        (fun acc t => markSuspect acc t now) n.members.members ∧
    (checkProbeTimeouts n now rng).metrics =
      { n.metrics with timeouts := n.metrics.timeouts +
          (n.probes.filter (expiredIndirect now)).length } := by
  refine ⟨?_, ?_, ?_, ?_, ?_⟩
  · rw [checkProbeTimeouts_spec]
  · rw [checkProbeTimeouts_spec]
  · intro p
    rw [checkProbeTimeouts_spec]
    simp only [List.mem_filter, List.mem_map]
  · rw [checkProbeTimeouts_spec]
  · rw [checkProbeTimeouts_spec]
    simp [List.length_map]

/-! ### Claim C5 -/

/-- C5 counterexample: the claim quantifies over every address and every
prior state including absent, but an Ack whose `from` equals the node's own
address leaves the (empty) table empty: no member record for the sender
exists afterwards. The violating execution is reachable — it is the very
first inbound datagram of a fresh node. -/
theorem c5_counterexample :
    mget (handleMessage (Node.init 0) (Message.ack 0 0) 5).members.members 0 = none ∧
    (run (Node.init 0) [Event.recv (Message.ack 0 0) 5]).members.members = [] := by
  constructor
  · rfl
  · rfl

/-- C5 (amended): for every address other than the local one — whatever its
prior state: Active, Suspect, Dead or absent — after handling
`Ack(seq, from=addr)` the member record for `addr` exists and is Active. -/
theorem c5_ack_leaves_sender_active (n : Node) (seq : Nat) (a : Addr) (now : Nat)
    (h : a ≠ n.local_addr) :
    ∃ m, mget (handleMessage n (Message.ack seq a) now).members.members a = some m ∧
      m.state = PeerState.active :=
  handleAck_marks_active n seq a now h

/-- C5 witness: a fresh node handles an Ack from absent peer 1, which is
afterwards present and Active. -/
theorem c5_witness :
    ∃ m, mget (handleMessage (Node.init 0) (Message.ack 2 1) 5).members.members 1
        = some m ∧ m.state = PeerState.active :=
  c5_ack_leaves_sender_active (Node.init 0) 2 1 5 (by decide)

/-! ### Claim C6 -/

/-- C6: `send_indirect_probes(target, seq)` enqueues exactly
`min(3, |eligible|)` messages where the eligible set holds the Active
members other than `target`; each queued message is
`PingReq(seq, from=local, target)`; the recipients are pairwise distinct
members of the eligible set (chosen by swap-remove on an index list); and
when the eligible set is empty nothing is enqueued. -/
theorem c6_indirect_probe_selection (n : Node) (target : Addr) (seq : Nat)
    (rng : List Nat) (hnd : (n.members.members.map (·.1)).Nodup) :
    (sendIndirectProbes n target seq rng).1.send_queue =
      n.send_queue ++ (indirectBatch n.members.members n.local_addr target seq rng).1 ∧
    ((indirectBatch n.members.members n.local_addr target seq rng).1).length
        = min INDIRECT_PROBE_COUNT (eligibleOthers n.members.members target).length ∧
    (((indirectBatch n.members.members n.local_addr target seq rng).1).map (·.2)).Nodup ∧
    (∀ x ∈ ((indirectBatch n.members.members n.local_addr target seq rng).1).map (·.2),
        x ∈ eligibleOthers n.members.members target) ∧
    (∀ e ∈ (indirectBatch n.members.members n.local_addr target seq rng).1,
        e.1 = Message.pingReq seq n.local_addr target) ∧
    (eligibleOthers n.members.members target = [] →
        (indirectBatch n.members.members n.local_addr target seq rng).1 = []) := by
  obtain ⟨h1, h2, h3, h4, h5⟩ :=
    indirectBatch_spec n.members.members n.local_addr target seq rng hnd
  exact ⟨rfl, h1, h2, h3, h4, h5⟩

/-- C6 witness: five known members, one Suspect, target 2 among the Active
ones; the batch has `min(3, |{1,3,5}|) = 3` pairwise-distinct recipients. -/
theorem c6_witness :
    ((indirectBatch nodeC6.members.members nodeC6.local_addr 2 7 [10, 4, 1]).1).length
        = min INDIRECT_PROBE_COUNT (eligibleOthers nodeC6.members.members 2).length ∧
    (((indirectBatch nodeC6.members.members nodeC6.local_addr 2 7 [10, 4, 1]).1).map
        (·.2)).Nodup :=
  ⟨(c6_indirect_probe_selection nodeC6 2 7 [10, 4, 1] (by decide)).2.1,
   (c6_indirect_probe_selection nodeC6 2 7 [10, 4, 1] (by decide)).2.2.1⟩

/-! ### Claim C7 -/

/-- C7: `stats()` returns no data iff the ring is empty; on a ring of n ≥ 1
samples it reports `sample_count = n`, `min` = the smallest and `max` = the
largest sample, and p50 / p95 / p99 equal to the sorted snapshot at index
`min(floor(n·q), n−1)` for q = 0.50 / 0.95 / 0.99 (`floor(n·q)` written as
`n * q·100 / 100` over the naturals). -/
theorem c7_stats_characterization (m : LatencyMetrics) :
    (stats m = none ↔ m.samples = []) ∧
    (m.samples ≠ [] → ∃ s, stats m = some s ∧
      s.sample_count = m.samples.length ∧
      s.min ∈ m.samples ∧ (∀ x ∈ m.samples, s.min ≤ x) ∧
      s.max ∈ m.samples ∧ (∀ x ∈ m.samples, x ≤ s.max) ∧
      s.p50 = (sortedSamples m).getD
        (min (m.samples.length * 50 / 100) (m.samples.length - 1)) 0 ∧
      s.p95 = (sortedSamples m).getD
        (min (m.samples.length * 95 / 100) (m.samples.length - 1)) 0 ∧
      s.p99 = (sortedSamples m).getD
        (min (m.samples.length * 99 / 100) (m.samples.length - 1)) 0) :=
  ⟨stats_eq_none_iff m, stats_spec m⟩

/-- C7 witness: on the ring [3, 1, 2] the claim instantiates to the concrete
stats record (min 1, max 3, p50 2, p95 3, p99 3, three samples). -/
theorem c7_witness :
    stats metricsC7 = some statsC7 ∧ statsC7.sample_count = 3 := by
  obtain ⟨s, h1, h2, _⟩ := (c7_stats_characterization metricsC7).2 (by decide)
  have hs : some s = some statsC7 := h1.symm.trans (by decide)
  injection hs with hs
  subst hs
  exact ⟨h1, h2⟩

/-! ### Claim C8 -/

/-- C8 counterexample: an Ack matching no probe indeed records nothing, but
the claim also states it always marks the sender Active; when the forged
sender is the node's own address and absent, `mark_active` falls through to
`ensure_member`, which refuses the local address — no record is created. -/
theorem c8_counterexample :
    (handleMessage (Node.init 0) (Message.ack 7 0) 3).metrics = (Node.init 0).metrics ∧
    mget (handleMessage (Node.init 0) (Message.ack 7 0) 3).members.members 0 = none := by
  constructor
  · rfl
  · rfl

/-- C8 (amended): an RTT sample is recorded by the Ack arm iff a pending
probe with that (seq, target=from) exists at receipt, in which case
`acks_received` rises by one and the sample is `now − sent_at` of the found
probe; a non-matching Ack leaves the metrics untouched, yet still marks the
sender Active provided the sender is not the node's own address; and in
every reachable execution the ring holds at most `pings_sent` samples —
every recorded sample is backed by a counted Ping send. -/
theorem c8_rtt_iff_matching_probe (n : Node) (seq : Nat) (s : Addr) (now : Nat) :
    ((∃ p ∈ n.probes, p.seq = seq ∧ p.target = s) →
      ∃ p, n.probes.find? (fun p => decide (p.seq = seq) && decide (p.target = s))
          = some p ∧
        (handleMessage n (Message.ack seq s) now).metrics.acks_received
          = n.metrics.acks_received + 1 ∧
        (handleMessage n (Message.ack seq s) now).metrics.samples =
          (if n.metrics.max_samples ≤ n.metrics.samples.length then
            n.metrics.samples.tail else n.metrics.samples) ++ [now - p.sent_at]) ∧
    ((¬ ∃ p ∈ n.probes, p.seq = seq ∧ p.target = s) →
      (handleMessage n (Message.ack seq s) now).metrics = n.metrics) ∧
    (s ≠ n.local_addr →
      ∃ m, mget (handleMessage n (Message.ack seq s) now).members.members s
          = some m ∧ m.state = PeerState.active) ∧
    (∀ (localAddr : Addr) (events : List Event),
      (run (Node.init localAddr) events).metrics.samples.length ≤
        (run (Node.init localAddr) events).metrics.pings_sent) := by
  refine ⟨?_, ?_, handleAck_marks_active n seq s now, ?_⟩
  · intro hex
    obtain ⟨p, hp⟩ := Option.isSome_iff_exists.mp ((find?_probe_iff n seq s).mpr hex)
    exact ⟨p, hp, (handleAck_matched n seq s now p hp).1,
      (handleAck_matched n seq s now p hp).2⟩
  · intro hnone
    have hm : n.probes.find? (fun p => decide (p.seq = seq) && decide (p.target = s))
        = none := by
      rw [← Option.not_isSome_iff_eq_none]
      intro hsome
      exact hnone ((find?_probe_iff n seq s).mp hsome)
    exact handleAck_unmatched n seq s now hm
  · intro la evs
    have h := counterInv_run (Node.init la) evs (counterInv_init la)
    exact Nat.le_trans h.1 (Nat.le_trans (Nat.le_add_right _ _) h.2)

/-- C8 witness: a node with pending probe (seq 2, target 9, sent 10) handles
`Ack(2, from=9)` at time 15: the ack is counted and the 5 ms RTT sample is
appended. -/
theorem c8_witness :
    (handleMessage nodeC8 (Message.ack 2 9) 15).metrics.acks_received
        = nodeC8.metrics.acks_received + 1 ∧
    (handleMessage nodeC8 (Message.ack 2 9) 15).metrics.samples =
      (if nodeC8.metrics.max_samples ≤ nodeC8.metrics.samples.length then
        nodeC8.metrics.samples.tail else nodeC8.metrics.samples) ++ [15 - 10] := by
  obtain ⟨p, hp, hacks, hsamples⟩ := (c8_rtt_iff_matching_probe nodeC8 2 9 15).1
    ⟨⟨2, 9, 10, false⟩, List.mem_singleton.mpr rfl, rfl, rfl⟩
  have hps : p = ⟨2, 9, 10, false⟩ := by
    have : some p = some ⟨2, 9, 10, false⟩ := hp.symm.trans (by decide)
    injection this
  subst hps
  exact ⟨hacks, hsamples⟩

/-! ### Claim C9 -/

/-- C9: `mark_suspect(addr)` changes state only for an existing member that
is currently Active (making it Suspect and stamping the change time); on an
absent, Suspect or Dead member it returns the membership table entirely
unchanged — and consequently no single step of any execution moves a member
from Dead to Suspect. -/
theorem c9_mark_suspect_discipline :
    (∀ (ms : List (Addr × Member)) (a : Addr) (now : Nat),
        mget ms a = none → markSuspect ms a now = ms) ∧
    (∀ (ms : List (Addr × Member)) (a : Addr) (now : Nat) (m : Member),
        mget ms a = some m → m.state ≠ PeerState.active → markSuspect ms a now = ms) ∧
    (∀ (ms : List (Addr × Member)) (a : Addr) (now : Nat) (m : Member),
        mget ms a = some m → m.state = PeerState.active →
        mget (markSuspect ms a now) a =
          some { m with state := PeerState.suspect, last_state_change := now }) ∧
    (∀ (n : Node) (e : Event) (x : Addr) (m m' : Member),
        mget n.members.members x = some m → m.state = PeerState.dead →
        mget (step n e).members.members x = some m' →
        m'.state ≠ PeerState.suspect) := by
  refine ⟨markSuspect_absent, markSuspect_not_active, markSuspect_active, ?_⟩
  intro n e x m m' h hs h2
  rcases dead_step_cases n e x m h hs with hc | ⟨now, hc⟩
  · rw [h2] at hc
    injection hc with hc
    subst hc
    rw [hs]
    intro hcon
    cases hcon
  · rw [h2] at hc
    injection hc with hc
    subst hc
    intro hcon
    cases hcon

/-- C9 witness: `mark_suspect` applied to a Dead member returns the table
unchanged. -/
theorem c9_witness :
    markSuspect [(1, ⟨PeerState.dead, 0, 0⟩)] 1 5 = [(1, ⟨PeerState.dead, 0, 0⟩)] :=
  c9_mark_suspect_discipline.2.1 [(1, ⟨PeerState.dead, 0, 0⟩)] 1 5
    ⟨PeerState.dead, 0, 0⟩ rfl (by decide)

/-! ### Claim C10 -/

/-- C10: on every non-empty ring, each index `stats()` uses on the sorted
snapshot — `n/2` for p50, the unclamped `⌊0.95·n⌋` for p95, the clamped p99
index, 0 for min and `n−1` for max — is strictly below n, so `stats()` is
total (returns a value) on any non-empty ring. -/
theorem c10_stats_indices_in_bounds (m : LatencyMetrics) (hne : m.samples ≠ []) :
    (stats m).isSome = true ∧
    p50Index m.samples.length < m.samples.length ∧
    p95Index m.samples.length < m.samples.length ∧
    p99Index m.samples.length < m.samples.length ∧
    0 < m.samples.length ∧
    m.samples.length - 1 < m.samples.length := by
  have hpos : 0 < m.samples.length := List.length_pos.mpr hne
  refine ⟨?_, p50Index_lt _ hpos, p95Index_lt _ hpos, p99Index_lt _ hpos, hpos, by omega⟩
  rw [stats_of_ne_nil m hne]
  rfl

/-- C10 witness: the bounds at the concrete two-sample ring. -/
theorem c10_witness :
    (stats metricsC10).isSome = true ∧
    p95Index metricsC10.samples.length < metricsC10.samples.length :=
  ⟨(c10_stats_indices_in_bounds metricsC10 (by decide)).1,
   (c10_stats_indices_in_bounds metricsC10 (by decide)).2.2.1⟩

end Swim
